import Mathlib

/-!
Shallow embedding of the array-value engine of the uiua repository
(`src/algorithm.rs`): the tagged runtime `Value`, the free functions
`range`, `reverse`, `force_length`, `sort_array` / `merge_sort_chunks`,
and the `Value` methods `range`, `reverse`, `join`.

Rust `f64` numbers are embedded as `ℚ` (exact for the integer and
half-integer values the claims exercise); `f64::round` (round half away
from zero) is `rq`, `f64::EPSILON` is `eps = 2 ^ (-52)`.  Rust panics
(assertion failures, out-of-bounds indexing, division by zero) are
embedded as `Option.none` branches, so that a function that panics on
some input is visibly partial in the embedding.
-/

namespace Uiua

/-- The tagged runtime value: a bare number, a bare character, or an
array owning a shape and a flat buffer of element values
(`value.rs`'s `Value`, as described by the spec's data model §3). -/
inductive Value : Type where
  | num (q : ℚ)
  | char (c : Char)
  | arr (shape : List Nat) (data : List Value)

instance : Inhabited Value := ⟨Value.num 0⟩

/-- An array: a shape and a flat backing buffer (spec §3 `Array`). -/
structure Arr where
  shape : List Nat
  data : List Value

/-- Is this value an array? (`Value::is_array`). -/
def Value.isArray : Value → Bool
  | .arr _ _ => true
  | _ => false

/-- `Value::len`: the leading-axis length, `1` for scalars and rank-0
arrays (spec §4.1: `shape[0]` if rank ≥ 1, else 1). -/
def Value.len : Value → Nat
  | .arr s _ => s.headD 1
  | _ => 1

/-- Product of the shape entries from axis `j` on (`shape[j..].product()`
in `range`). -/
def products (s : List Nat) (j : Nat) : Nat := (s.drop j).prod

/-- Product of the shape entries from axis `j + 1` on
(`shape[j+1..].product()` in `range`). -/
def moduli (s : List Nat) (j : Nat) : Nat := (s.drop (j + 1)).prod

/-- Coordinate `j` of flattened index `i`: `i % products[j] / moduli[j]`
(the expression pushed by `range` in `algorithm.rs`). -/
def coordAt (s : List Nat) (i j : Nat) : Nat := i % products s j / moduli s j

/-- The free function `range(shape)` of `algorithm.rs`: a flat list of
`shape.prod` values; bare numbers when the requested rank is ≤ 1,
otherwise rank-1 numeric cells of the row-major coordinates. -/
def range (shape : List Nat) : List Value :=
  (List.range shape.prod).map fun (i : Nat) =>
    if shape.length ≤ 1 then Value.num (i : ℚ)
    else Value.arr [shape.length]
      ((List.range shape.length).map fun (j : Nat) => Value.num (coordAt shape i j))

/-- Rust `f64::round`: round to nearest, halves away from zero. -/
def rq (q : ℚ) : ℤ := if 0 ≤ q then ⌊q + 1 / 2⌋ else ⌈q - 1 / 2⌉

/-- Rust `f64::EPSILON`. -/
def eps : ℚ := 1 / 2 ^ 52

/-- The rejection test of `Value::range` for one descriptor number
(`algorithm.rs` lines 42 and 59): not within epsilon of its own round,
or rounding to zero or below. -/
def badNum (f : ℚ) : Prop := |f - (rq f : ℚ)| > eps ∨ rq f ≤ 0

instance (f : ℚ) : Decidable (badNum f) := by unfold badNum; infer_instance

/-- The error message of `Value::range` for a bad number inside an array
descriptor (string in `algorithm.rs`, lines 43-47). -/
def arrMsg : String :=
  "Tried to make a range of an array with decimal or nonpositive numbers, but only natural numbers are allowed"

/-- The error message of `Value::range` for a bad single-number
descriptor (string in `algorithm.rs`, lines 60-63). -/
def numMsg : String :=
  "Tried to make a range of decimal or nonpositive number, but only natural numbers are allowed"

/-- The error message of `Value::range` for a descriptor that is neither
a number nor an all-numbers array (`algorithm.rs`, line 71). -/
def otherMsg : String := "Ranges can only be created from natural numbers"

/-- Extract the numbers of an all-numbers buffer; `none` when some
element is not a number (`Array::is_numbers` / `Array::numbers`). -/
def numsOf : List Value → Option (List ℚ)
  | [] => some []
  | .num q :: rest => (numsOf rest).map (fun l => q :: l)
  | _ => none

/-- The validation loop of `Value::range`'s array branch: check each
number in order, erroring at the first decimal or nonpositive one, and
collect the rounded axis sizes. -/
def checkShape : List ℚ → Except String (List Nat)
  | [] => .ok []
  | f :: rest =>
    if badNum f then .error arrMsg
    else
      match checkShape rest with
      | .ok s => .ok ((rq f).toNat :: s)
      | .error e => .error e

/-- `Value::range` (`algorithm.rs`, lines 35-72): validate the numeric
descriptor, build the shape, and return the array `(shape, range(shape))`;
errors are returned as values with the source's message strings.  The
descriptor's own shape is never consulted, only its flat number buffer. -/
def Value.range : Value → Except String Arr
  | .arr _shape data =>
    match numsOf data with
    | some fs =>
      match checkShape fs with
      | .ok s => .ok ⟨s, Uiua.range s⟩
      | .error e => .error e
    | none => .error otherMsg
  | .num f =>
    if badNum f then .error numMsg
    else .ok ⟨[(rq f).toNat], Uiua.range [(rq f).toNat]⟩
  | .char _ => .error otherMsg

/-- The net effect of `reverse`'s swap loop when no indexing panics:
position `p` (in cell `c = p / cellSize`) receives the element of the
mirrored cell `cells - 1 - c`.  Cells with
`min c (cells - 1 - c) < cells / 2` are exactly the ones the loop
swaps, the untouched middle cell of an odd count has
`cells - 1 - c = c`, and positions beyond `cells * cellSize` are never
touched. -/
def reversedView [Inhabited α] (cells : Nat) (cellShape : List Nat)
    (data : List α) : List α :=
  (List.range data.length).map fun p =>
    if p / cellShape.prod < cells then
      data.getD ((cells - 1 - p / cellShape.prod) * cellShape.prod
        + p % cellShape.prod) default
    else data.getD p default

/-- The free function `reverse(shape, data)` of `algorithm.rs`: for a
nonempty shape `cells :: cellShape` the loop evaluates
`&mut data[i * cellSize]` and `&mut data[(cells - i - 1) * cellSize]`
for each `i < cells / 2` and block-swaps them.  An indexing panics iff
some touched index reaches `data.length`; since the length never
changes, the loop panics iff its largest touched index does, and that
is `(cells - 1) * cellSize` at `i = 0` (right indices decrease with
`i`, and left indices stay at most `(cells / 2 - 1) * cellSize`).  So
the loop aborts — embedded as `none` — iff `1 ≤ cells / 2` and
`(cells - 1) * cellSize ≥ data.length` (for an invariant-satisfying
buffer: iff `cells ≥ 2` and `cellSize = 0`, e.g. shape `[2, 0]`);
otherwise it rearranges the buffer to `reversedView`.  Rank 0 returns
immediately. -/
def reverse [Inhabited α] (shape : List Nat) (data : List α) : Option (List α) :=
  match shape with
  | [] => some data
  | cells :: cellShape =>
    if 1 ≤ cells / 2 ∧ data.length ≤ (cells - 1) * cellShape.prod then none
    else some (reversedView cells cellShape data)

/-- `Value::reverse`: no-op on non-arrays, otherwise reverse the cells
of the owned array (the `Array::reverse` delegation is modelled from
spec §4.3, which says it applies the free reversal to the array's shape
and buffer); a panic of the free reversal propagates. -/
def Value.reverse : Value → Option Value
  | .arr s d => (Uiua.reverse s d).map (fun d' => Value.arr s d')
  | v => some v

/-- The growing loop of `force_length`: while the buffer is shorter than
the target, push the element at index `i` (0, 1, 2, ...) of the growing
buffer itself; indexing out of bounds (empty original buffer) is the
Rust panic, embedded as `none`. -/
def force_length_loop (len : Nat) (data : List α) (i : Nat) : Option (List α) :=
  if data.length < len then
    match data[i]? with
    | none => none
    | some x => force_length_loop len (data ++ [x]) (i + 1)
  else some data
termination_by len - data.length
decreasing_by simp_all; omega

/-- `force_length(data, len)` of `algorithm.rs`: grow by round-robin
pushes when too short, truncate when too long, otherwise no-op. -/
def force_length (data : List α) (len : Nat) : Option (List α) :=
  if data.length < len then force_length_loop len data 0
  else if len < data.length then some (data.take len)
  else some data

/-- The cell comparison of `merge_sort_chunks`: iterate the zipped
elements, keeping the first non-`Equal` comparison, `Equal` when the
zip is exhausted (the source's `for`-loop over `l.iter().zip(r)`). -/
def lexCmp (cmp : α → α → Ordering) : List α → List α → Ordering
  | l :: ls, r :: rs =>
    match cmp l r with
    | .eq => lexCmp cmp ls rs
    | o => o
  | _, _ => .eq

/-- Rust `chunks_exact(sz)` collected to a list: successive blocks of
exactly `sz` elements, any shorter remainder dropped. -/
def chunksExact (sz : Nat) (data : List α) : List (List α) :=
  if h : sz = 0 ∨ data.length < sz then []
  else data.take sz :: chunksExact sz (data.drop sz)
termination_by data.length
decreasing_by simp; omega

/-- The merge loop of `merge_sort_chunks`: one chunk is emitted per
iteration; the left chunk only when it compares strictly `Less`, the
right chunk otherwise (also on ties). -/
def mergeChunks (cmp : α → α → Ordering) : List (List α) → List (List α) → List (List α)
  | [], [] => []
  | [], r :: rs => r :: mergeChunks cmp [] rs
  | l :: ls, [] => l :: mergeChunks cmp ls []
  | l :: ls, r :: rs =>
    if lexCmp cmp l r = .lt then l :: mergeChunks cmp ls (r :: rs)
    else r :: mergeChunks cmp (l :: ls) rs

/-- `merge_sort_chunks` of `algorithm.rs`.  The Rust division
`data.len() / chunk_size` panics for `chunk_size = 0`, and the
`assert_ne!(cells, 0)` aborts for an empty buffer: both are `none`.
Otherwise: one cell is already sorted; for more, split at
`mid = cells / 2`, recursively sort both slices, merge their exact
chunks into `tmp`, and copy back (`clone_from_slice` requires `tmp` to
have the buffer's length, embedded as the final guard). -/
def merge_sort_chunks (cmp : α → α → Ordering) (chunk_size : Nat) (data : List α) :
    Option (List α) :=
  if hsz : chunk_size = 0 then none
  else if hc : data.length / chunk_size = 0 then none
  else if h1 : data.length / chunk_size = 1 then some data
  else
    match merge_sort_chunks cmp chunk_size
            (data.take (data.length / chunk_size / 2 * chunk_size)),
          merge_sort_chunks cmp chunk_size
            (data.drop (data.length / chunk_size / 2 * chunk_size)) with
    | some l, some r =>
      if (mergeChunks cmp (chunksExact chunk_size l) (chunksExact chunk_size r)).flatten.length
          = data.length then
        some (mergeChunks cmp (chunksExact chunk_size l) (chunksExact chunk_size r)).flatten
      else none
    | _, _ => none
termination_by data.length
decreasing_by
  · simp only [List.length_take]
    have h3 := Nat.div_mul_le_self data.length chunk_size
    have h4 : data.length / chunk_size / 2 < data.length / chunk_size :=
      Nat.div_lt_self (Nat.pos_of_ne_zero hc) one_lt_two
    have h5 : data.length / chunk_size / 2 * chunk_size <
        data.length / chunk_size * chunk_size :=
      (Nat.mul_lt_mul_right (Nat.pos_of_ne_zero hsz)).mpr h4
    exact Nat.lt_of_le_of_lt (Nat.min_le_left _ _) (lt_of_lt_of_le h5 h3)
  · simp only [List.length_drop]
    have h6 : chunk_size ≤ data.length := by
      by_contra hlt
      exact hc (Nat.div_eq_of_lt (Nat.lt_of_not_le hlt))
    have h2 : 2 ≤ data.length / chunk_size := by
      rcases Nat.eq_or_lt_of_le (Nat.one_le_iff_ne_zero.mpr hc) with h | h
      · exact absurd h.symm h1
      · exact h
    have h4 : 1 ≤ data.length / chunk_size / 2 :=
      (Nat.one_le_div_iff (by norm_num)).mpr h2
    have h7 : 0 < data.length / chunk_size / 2 * chunk_size :=
      Nat.mul_pos h4 (Nat.pos_of_ne_zero hsz)
    exact Nat.sub_lt (lt_of_lt_of_le (Nat.pos_of_ne_zero hsz) h6) h7

/-- `sort_array` of `algorithm.rs`: no-op for rank 0, otherwise merge
sort the buffer in cell-sized chunks. -/
def sort_array (cmp : α → α → Ordering) (shape : List Nat) (data : List α) :
    Option (List α) :=
  if shape = [] then some data
  else merge_sort_chunks cmp ((shape.drop 1).prod) data

/-- The leading-axis length of an array (`Array::len` per spec §4.1). -/
def Arr.len (a : Arr) : Nat := a.shape.headD 1

/-- The non-leading axes of an array (the "cell shape", spec §4.3). -/
def Arr.cellShape (a : Arr) : List Nat := a.shape.drop 1

/-- The error message of `Array::join` on mismatched cell shapes;
spec §4.3 only requires it to name both shapes. -/
def shapeMsg (a b : Arr) : String :=
  "Shape mismatch joining " ++ toString a.shape ++ " and " ++ toString b.shape

/-- Modelled from the spec: `Array::join` lives in `array.rs`, which is
not part of the visible core.  Spec §4.3: the two arrays must agree on
every axis except axis 0, the result's shape is
`[shape0.self + shape0.other, ...cellShape]` and its buffer the two
buffers concatenated (self first); when one side is empty (length 0)
the result is simply the other side, reshaped to agree. -/
def Arr.join (a b : Arr) : Except String Arr :=
  if a.len = 0 then .ok ⟨b.len :: b.cellShape, b.data⟩
  else if b.len = 0 then .ok ⟨a.len :: a.cellShape, a.data⟩
  else if a.cellShape = b.cellShape then
    .ok ⟨(a.len + b.len) :: a.cellShape, a.data ++ b.data⟩
  else .error (shapeMsg a b)

/-- Modelled from the spec: `Array::from(Value)` (scalar promotion used
by `Value::join`, spec §4.2: bare scalars become degenerate rank-0
arrays holding the one value; an array value keeps its own array). -/
def Value.toArr : Value → Arr
  | .arr s d => ⟨s, d⟩
  | v => ⟨[], [v]⟩

/-- `Value::join` (`algorithm.rs`, lines 78-95): all four tag
combinations promote non-array operands with `Array::from` and delegate
to `Array::join`; the result replaces `self`. -/
def Value.join (v other : Value) : Except String Value :=
  match (Value.toArr v).join (Value.toArr other) with
  | .ok r => .ok (.arr r.shape r.data)
  | .error e => .error e

/-- Well-formed values: every array level's buffer length equals its
shape's total element count (spec §3's invariant). -/
inductive ValueWF : Value → Prop where
  | num (q : ℚ) : ValueWF (.num q)
  | char (c : Char) : ValueWF (.char c)
  | arr (shape : List Nat) (data : List Value) :
      data.length = shape.prod → (∀ v ∈ data, ValueWF v) → ValueWF (.arr shape data)

/-- Row-major encoding of a coordinate tuple against a shape: the first
coordinate weighs the product of the remaining axes. -/
def enc : List Nat → List Nat → Nat
  | _ :: s', x :: c' => x * s'.prod + enc s' c'
  | _, _ => 0

section RangeLemmas

lemma products_zero (s : List Nat) : products s 0 = s.prod := by
  simp [products]

lemma moduli_zero_cons (d : Nat) (s' : List Nat) : moduli (d :: s') 0 = s'.prod := by
  simp [moduli]

lemma products_succ_cons (d : Nat) (s' : List Nat) (j : Nat) :
    products (d :: s') (j + 1) = products s' j := by
  simp [products]

lemma moduli_succ_cons (d : Nat) (s' : List Nat) (j : Nat) :
    moduli (d :: s') (j + 1) = moduli s' j := by
  simp [moduli]

lemma products_dvd_prod (s : List Nat) (j : Nat) : products s j ∣ s.prod :=
  ⟨(s.take j).prod, by rw [products, ← List.prod_take_mul_prod_drop s j]; ring⟩

lemma coordAt_zero_cons (d : Nat) (s' : List Nat) (i : Nat) (hi : i < (d :: s').prod) :
    coordAt (d :: s') i 0 = i / s'.prod := by
  rw [coordAt, products_zero, moduli_zero_cons, Nat.mod_eq_of_lt hi]

lemma coordAt_succ_cons (d : Nat) (s' : List Nat) (i j : Nat) :
    coordAt (d :: s') i (j + 1) = coordAt s' (i % s'.prod) j := by
  rw [coordAt, coordAt, products_succ_cons, moduli_succ_cons,
    Nat.mod_mod_of_dvd i (products_dvd_prod s' j)]

lemma coordAt_lt (s : List Nat) (hpos : ∀ d ∈ s, 0 < d) (i j : Nat) (hj : j < s.length) :
    coordAt s i j < s.getD j 0 := by
  have hdrop : s.drop j = s.getD j 0 :: s.drop (j + 1) := by
    rw [List.getD_eq_getElem s 0 hj]
    exact List.drop_eq_getElem_cons hj
  have hM : 0 < moduli s j := by
    rw [moduli]
    exact List.prod_pos fun d hd => hpos d (List.mem_of_mem_drop hd)
  have hmem : s.getD j 0 ∈ s := by
    rw [List.getD_eq_getElem s 0 hj]
    exact List.getElem_mem hj
  have hP : products s j = s.getD j 0 * moduli s j := by
    rw [products, moduli, hdrop, List.prod_cons]
  have hmod : i % products s j < products s j :=
    Nat.mod_lt i (by rw [hP]; exact Nat.mul_pos (hpos _ hmem) hM)
  rw [coordAt, Nat.div_lt_iff_lt_mul hM]
  calc i % products s j < products s j := hmod
    _ = s.getD j 0 * moduli s j := hP

lemma coord_sum (s : List Nat) :
    (∀ d ∈ s, 0 < d) → ∀ i, i < s.prod →
      ((List.range s.length).map fun j => coordAt s i j * moduli s j).sum = i := by
  induction s with
  | nil =>
    intro _ i hi
    simp only [List.prod_nil, Nat.lt_one_iff] at hi
    simp [hi]
  | cons d s' ih =>
    intro hpos i hi
    have hpos' : ∀ x ∈ s', 0 < x := fun x hx => hpos x (List.mem_cons_of_mem d hx)
    have hs'pos : 0 < s'.prod := List.prod_pos hpos'
    have himod : i % s'.prod < s'.prod := Nat.mod_lt i hs'pos
    rw [List.length_cons, List.range_succ_eq_map, List.map_cons, List.map_map,
      List.sum_cons]
    have hcomp : ∀ j ∈ List.range s'.length,
        ((fun j => coordAt (d :: s') i j * moduli (d :: s') j) ∘ Nat.succ) j
          = coordAt s' (i % s'.prod) j * moduli s' j := by
      intro j _
      simp only [Function.comp_apply, coordAt_succ_cons, moduli_succ_cons]
    rw [List.map_congr_left hcomp, ih hpos' _ himod, coordAt_zero_cons d s' i hi,
      moduli_zero_cons, Nat.div_add_mod']

lemma enc_lt {c s : List Nat} (h : List.Forall₂ (· < ·) c s) : enc s c < s.prod := by
  induction h with
  | nil => simp [enc]
  | @cons x d c' s' hxd htail ih =>
    simp only [enc, List.prod_cons]
    calc x * s'.prod + enc s' c' < x * s'.prod + s'.prod := Nat.add_lt_add_left ih _
      _ = (x + 1) * s'.prod := by ring
      _ ≤ d * s'.prod := Nat.mul_le_mul_right s'.prod hxd

lemma decode_enc {c s : List Nat} (h : List.Forall₂ (· < ·) c s) :
    (List.range s.length).map (fun j => coordAt s (enc s c) j) = c := by
  induction h with
  | nil => simp
  | @cons x d c' s' hxd htail ih =>
    have hr : enc s' c' < s'.prod := enc_lt htail
    have hP : 0 < s'.prod := Nat.lt_of_le_of_lt (Nat.zero_le _) hr
    have henc : enc (d :: s') (x :: c') = x * s'.prod + enc s' c' := rfl
    have hlt : enc (d :: s') (x :: c') < (d :: s').prod := enc_lt (List.Forall₂.cons hxd htail)
    rw [List.length_cons, List.range_succ_eq_map, List.map_cons, List.map_map]
    have hhead : coordAt (d :: s') (enc (d :: s') (x :: c')) 0 = x := by
      rw [coordAt_zero_cons d s' _ hlt, henc, Nat.mul_comm, Nat.mul_add_div hP,
        Nat.div_eq_of_lt hr, Nat.add_zero]
    have hmod : enc (d :: s') (x :: c') % s'.prod = enc s' c' := by
      rw [henc, Nat.mul_comm x s'.prod, Nat.mul_add_mod, Nat.mod_eq_of_lt hr]
    have hcomp : ∀ j ∈ List.range s'.length,
        ((fun j => coordAt (d :: s') (enc (d :: s') (x :: c')) j) ∘ Nat.succ) j
          = coordAt s' (enc s' c') j := by
      intro j _
      simp only [Function.comp_apply, coordAt_succ_cons, hmod]
    rw [List.map_congr_left hcomp, ih, hhead]

lemma range_length (s : List Nat) : (range s).length = s.prod := by
  simp [range]

lemma range_getElem? (s : List Nat) (i : Nat) (hi : i < s.prod) (h : 1 < s.length) :
    (range s)[i]? = some (Value.arr [s.length]
      ((List.range s.length).map fun (j : Nat) => Value.num (coordAt s i j))) := by
  have hnot : ¬ s.length ≤ 1 := Nat.not_le.mpr h
  simp [range, List.getElem?_map, List.getElem?_range, hi, hnot]

end RangeLemmas

/-- C1: for every shape of positive axis sizes, the free function
`range` returns exactly `prod s` values; for rank ≤ 1 they are the bare
numbers `0 .. n-1`; for rank > 1 the value at flattened index `i` is a
rank-1 numeric cell whose coordinate `j` is `i % products[j] / moduli[j]`,
these coordinates are in range of the shape, they reconstruct `i` under
the row-major weights (so distinct indices give distinct tuples), and
every in-range coordinate tuple is hit by exactly the index that encodes
it row-major; `range [2, 3]` is the six cells
`[0,0], [0,1], [0,2], [1,0], [1,1], [1,2]`. -/
theorem claim1_range_row_major (s : List Nat) (hpos : ∀ d ∈ s, 0 < d) :
    (range s).length = s.prod
    ∧ (s.length ≤ 1 → range s = (List.range s.prod).map fun (i : Nat) => Value.num (i : ℚ))
    ∧ (1 < s.length → ∀ i, i < s.prod →
        (range s)[i]? = some (Value.arr [s.length]
          ((List.range s.length).map fun (j : Nat) => Value.num (coordAt s i j)))
        ∧ (∀ j, j < s.length → coordAt s i j < s.getD j 0)
        ∧ ((List.range s.length).map fun j => coordAt s i j * moduli s j).sum = i)
    ∧ (∀ c : List Nat, List.Forall₂ (· < ·) c s →
        enc s c < s.prod ∧ (List.range s.length).map (fun j => coordAt s (enc s c) j) = c)
    ∧ range [2, 3] =
        ([[0, 0], [0, 1], [0, 2], [1, 0], [1, 1], [1, 2]] : List (List Nat)).map
          (fun c => Value.arr [2] (c.map fun (k : Nat) => Value.num (k : ℚ))) := by
  refine ⟨range_length s, ?_, ?_, ?_, rfl⟩
  · intro h
    simp [range, h]
  · intro h i hi
    exact ⟨range_getElem? s i hi h, fun j hj => coordAt_lt s hpos i j hj,
      coord_sum s hpos i hi⟩
  · intro c hc
    exact ⟨enc_lt hc, decode_enc hc⟩

/-- Witness for C1 at the concrete shape `[2, 3]`. -/
theorem claim1_range_row_major_witness : (range [2, 3]).length = 6 :=
  (claim1_range_row_major [2, 3] (by decide)).1.trans (by rfl)

section WFLemmas

lemma range_mem_wf (s : List Nat) (v : Value) (hv : v ∈ range s) : ValueWF v := by
  simp only [range, List.mem_map, List.mem_range] at hv
  obtain ⟨i, _, rfl⟩ := hv
  by_cases h : s.length ≤ 1
  · simp only [if_pos h]
    exact ValueWF.num _
  · simp only [if_neg h]
    refine ValueWF.arr _ _ (by simp) ?_
    intro v hv
    simp only [List.mem_map] at hv
    obtain ⟨j, _, rfl⟩ := hv
    exact ValueWF.num _

end WFLemmas

/-- C8: every array produced by a successful `Value::range` satisfies the
shape invariant, at the top level (the buffer holds exactly
`shape.prod` values, the count returned by the free `range` function)
and recursively in every nested cell. -/
theorem claim8_range_invariant (v : Value) (a : Arr) (h : Value.range v = .ok a) :
    a.data.length = a.shape.prod ∧ ValueWF (.arr a.shape a.data) := by
  have key : a.data = Uiua.range a.shape := by
    cases v with
    | num f =>
      rw [Value.range] at h
      by_cases hb : badNum f
      · rw [if_pos hb] at h; cases h
      · rw [if_neg hb] at h
        cases h
        rfl
    | char c => cases h
    | arr s d =>
      rw [Value.range] at h
      cases hn : numsOf d with
      | none => simp [hn] at h
      | some fs =>
        simp only [hn] at h
        cases hcs : checkShape fs with
        | error e => simp [hcs] at h
        | ok sh =>
          simp only [hcs] at h
          cases h
          rfl
  constructor
  · rw [key, range_length]
  · refine ValueWF.arr _ _ (by rw [key, range_length]) ?_
    intro v hv
    rw [key] at hv
    exact range_mem_wf _ _ hv

/-- Witness for C8 at the descriptor `3`. -/
theorem claim8_range_invariant_witness :
    ([Value.num 0, Value.num 1, Value.num 2] : List Value).length = List.prod [3] := by
  have h : Value.range (.num 3) = .ok ⟨[3], Uiua.range [3]⟩ := by
    have hb : ¬ badNum 3 := by
      rw [badNum, rq]
      norm_num [eps]
    have hr : rq 3 = 3 := by rw [rq]; norm_num
    rw [Value.range, if_neg hb, hr]
    rfl
  have := (claim8_range_invariant (.num 3) ⟨[3], Uiua.range [3]⟩ h).1
  simpa [range, List.range_succ] using this

/-- C10: `Value::range` reads an all-numbers array descriptor's axis
sizes from the flat buffer and never consults the descriptor's own
shape, so descriptors of any rank with the same element sequence give
the same result; in particular a shape-`[2,2]` descriptor with elements
`2, 3, 4, 5` behaves exactly like the rank-1 vector `[2, 3, 4, 5]`. -/
theorem claim10_range_shape_agnostic :
    (∀ (s₁ s₂ : List Nat) (data : List Value), (numsOf data).isSome →
        Value.range (.arr s₁ data) = Value.range (.arr s₂ data))
    ∧ Value.range (.arr [2, 2] (([2, 3, 4, 5] : List ℚ).map Value.num))
        = Value.range (.arr [4] (([2, 3, 4, 5] : List ℚ).map Value.num)) :=
  ⟨fun _ _ _ _ => rfl, rfl⟩

/-- Witness for C10: a rank-2 and a rank-1 descriptor with the same
elements. -/
theorem claim10_range_shape_agnostic_witness :
    (numsOf (([2, 3, 4, 5] : List ℚ).map Value.num)).isSome = true
    ∧ Value.range (.arr [2, 2] (([2, 3, 4, 5] : List ℚ).map Value.num))
        = Value.range (.arr [7] (([2, 3, 4, 5] : List ℚ).map Value.num)) :=
  ⟨by rfl, claim10_range_shape_agnostic.1 [2, 2] [7] _ (by rfl)⟩

section RangeErrorLemmas

lemma numsOf_map_num (fs : List ℚ) : numsOf (fs.map Value.num) = some fs := by
  induction fs with
  | nil => rfl
  | cons f rest ih => simp [numsOf, ih]

lemma checkShape_error {fs : List ℚ} (h : ∃ f ∈ fs, badNum f) :
    checkShape fs = .error arrMsg := by
  induction fs with
  | nil => simp at h
  | cons f rest ih =>
    by_cases hf : badNum f
    · rw [checkShape, if_pos hf]
    · rw [checkShape, if_neg hf]
      obtain ⟨g, hg, hbad⟩ := h
      rcases List.mem_cons.mp hg with rfl | hg'
      · exact absurd hbad hf
      · have h' : checkShape rest = .error arrMsg := ih ⟨g, hg', hbad⟩
        simp [h']

lemma checkShape_ok {fs : List ℚ} (h : ∀ f ∈ fs, ¬ badNum f) :
    checkShape fs = .ok (fs.map fun f => (rq f).toNat) := by
  induction fs with
  | nil => rfl
  | cons f rest ih =>
    have hf := h f (List.mem_cons_self f rest)
    rw [checkShape, if_neg hf, ih (fun g hg => h g (List.mem_cons_of_mem f hg))]
    rfl

end RangeErrorLemmas

/-- C2: `Value::range` fails exactly when its numeric descriptor is
invalid: a number errors iff it is farther than `f64::EPSILON` from its
round or rounds to ≤ 0 (so `4.5`, `-1` and `0` are rejected and a zero
axis cannot be range-generated), an all-numbers array errors iff some
element is invalid, `range(5)` succeeds with `[0, 1, 2, 3, 4]`, any
other kind of value errors with the natural-numbers message, and the
three messages are pairwise distinct, each naming natural numbers. -/
theorem claim2_range_errors :
    (∀ f : ℚ, badNum f → Value.range (.num f) = .error numMsg)
    ∧ (∀ f : ℚ, ¬ badNum f →
        Value.range (.num f) = .ok ⟨[(rq f).toNat], range [(rq f).toNat]⟩)
    ∧ (∀ (shape : List Nat) (fs : List ℚ), (∃ f ∈ fs, badNum f) →
        Value.range (.arr shape (fs.map Value.num)) = .error arrMsg)
    ∧ (∀ (shape : List Nat) (fs : List ℚ), (∀ f ∈ fs, ¬ badNum f) →
        Value.range (.arr shape (fs.map Value.num))
          = .ok ⟨fs.map fun f => (rq f).toNat, range (fs.map fun f => (rq f).toNat)⟩)
    ∧ (∀ f : ℚ, badNum f ↔ (|f - (rq f : ℚ)| > eps ∨ rq f ≤ 0))
    ∧ (∀ c : Char, Value.range (.char c) = .error otherMsg)
    ∧ (∀ (shape : List Nat) (data : List Value), numsOf data = none →
        Value.range (.arr shape data) = .error otherMsg)
    ∧ Value.range (.num (9 / 2)) = .error numMsg
    ∧ Value.range (.num (-1)) = .error numMsg
    ∧ Value.range (.num 0) = .error numMsg
    ∧ Value.range (.num 5)
        = .ok ⟨[5], (List.range 5).map fun (i : Nat) => Value.num (i : ℚ)⟩
    ∧ (numMsg ≠ arrMsg ∧ numMsg ≠ otherMsg ∧ arrMsg ≠ otherMsg)
    ∧ (∃ p q, arrMsg = p ++ "natural numbers" ++ q)
    ∧ (∃ p q, numMsg = p ++ "natural numbers" ++ q)
    ∧ (∃ p q, otherMsg = p ++ "natural numbers" ++ q) := by
  have hnum_bad : ∀ f : ℚ, badNum f → Value.range (.num f) = .error numMsg := by
    intro f hb
    rw [Value.range, if_pos hb]
  have hnum_ok : ∀ f : ℚ, ¬ badNum f →
      Value.range (.num f) = .ok ⟨[(rq f).toNat], range [(rq f).toNat]⟩ := by
    intro f hb
    rw [Value.range, if_neg hb]
  have h45 : badNum (9 / 2 : ℚ) := by
    rw [badNum, rq]
    norm_num [eps]
    rw [abs_of_pos (show (0 : ℚ) < 1 / 2 by norm_num)]
    norm_num
  have hm1 : badNum (-1 : ℚ) := by
    have hc : ⌈(-1 : ℚ) - 1 / 2⌉ = -1 := by
      rw [show (-1 : ℚ) - 1 / 2 = -(3 / 2) by norm_num, Int.ceil_neg]
      norm_num
    rw [badNum, rq, if_neg (by norm_num : ¬ (0 : ℚ) ≤ -1), hc]
    norm_num
  have h0 : badNum (0 : ℚ) := by
    rw [badNum, rq]
    norm_num
  have h5good : ¬ badNum (5 : ℚ) := by
    rw [badNum, rq]
    norm_num [eps]
  have hr5 : rq 5 = 5 := by rw [rq]; norm_num
  refine ⟨hnum_bad, hnum_ok, ?_, ?_, fun f => Iff.rfl, fun c => rfl, ?_,
    hnum_bad _ h45, hnum_bad _ hm1, hnum_bad _ h0, ?_, ?_, ?_, ?_, ?_⟩
  · intro shape fs h
    simp only [Value.range, numsOf_map_num, checkShape_error h]
  · intro shape fs h
    simp only [Value.range, numsOf_map_num, checkShape_ok h]
  · intro shape data h
    simp only [Value.range, h]
  · rw [hnum_ok 5 h5good, hr5]
    rfl
  · refine ⟨?_, ?_, ?_⟩ <;> decide
  · exact ⟨"Tried to make a range of an array with decimal or nonpositive numbers, but only ",
      " are allowed", by rfl⟩
  · exact ⟨"Tried to make a range of decimal or nonpositive number, but only ",
      " are allowed", by rfl⟩
  · exact ⟨"Ranges can only be created from ", "", by rfl⟩

/-- Witness for C2: the single-number branch applied at the invalid
descriptor `4.5` and the valid descriptor `5`. -/
theorem claim2_range_errors_witness :
    Value.range (.num (9 / 2)) = .error numMsg
    ∧ Value.range (.num 5) = .ok ⟨[5], range [5]⟩ := by
  have h45 : badNum (9 / 2 : ℚ) := by
    rw [badNum, rq]
    norm_num [eps]
    rw [abs_of_pos (show (0 : ℚ) < 1 / 2 by norm_num)]
    norm_num
  have h5good : ¬ badNum (5 : ℚ) := by
    rw [badNum, rq]
    norm_num [eps]
  have hr5 : rq 5 = 5 := by rw [rq]; norm_num
  refine ⟨claim2_range_errors.1 (9 / 2) h45, ?_⟩
  rw [claim2_range_errors.2.1 5 h5good, hr5]
  rfl

section ReverseLemmas

variable {α : Type} [Inhabited α]

lemma reversedView_length (cells : Nat) (cs : List Nat) (data : List α) :
    (reversedView cells cs data).length = data.length := by
  simp [reversedView]

lemma reversedView_getElem {c : Nat} {cs : List Nat} {data : List α}
    (hlen : data.length = c * cs.prod) {p : Nat}
    (hp : p < (reversedView c cs data).length) :
    (reversedView c cs data)[p]
      = data.getD ((c - 1 - p / cs.prod) * cs.prod + p % cs.prod) default := by
  have hp' : p < data.length := by rw [reversedView_length] at hp; exact hp
  have hsz : 0 < cs.prod := by
    rcases Nat.eq_zero_or_pos cs.prod with h0 | h
    · rw [h0, Nat.mul_zero] at hlen; omega
    · exact h
  have hdiv : p / cs.prod < c := (Nat.div_lt_iff_lt_mul hsz).mpr (by rw [← hlen]; exact hp')
  simp only [reversedView, List.getElem_map, List.getElem_range]
  rw [if_pos hdiv]

lemma reversedView_involution {c : Nat} {cs : List Nat} {data : List α}
    (hlen1 : data.length = c * cs.prod) :
    reversedView c cs (reversedView c cs data) = data := by
  have hlen2 : (reversedView c cs data).length = c * cs.prod := by
    rw [reversedView_length]; exact hlen1
  apply List.ext_getElem (by rw [reversedView_length, reversedView_length])
  intro p h1 h2
  have hsz : 0 < cs.prod := by
    rcases Nat.eq_zero_or_pos cs.prod with h0 | h
    · rw [h0, Nat.mul_zero] at hlen1; omega
    · exact h
  have hdiv : p / cs.prod < c :=
    (Nat.div_lt_iff_lt_mul hsz).mpr (by rw [← hlen1]; exact h2)
  have hc : 0 < c := by
    rcases Nat.eq_zero_or_pos c with h0 | h
    · rw [h0, Nat.zero_mul] at hlen1; omega
    · exact h
  have hmodlt : p % cs.prod < cs.prod := Nat.mod_lt p hsz
  have hq : (c - 1 - p / cs.prod) * cs.prod + p % cs.prod < c * cs.prod := by
    calc (c - 1 - p / cs.prod) * cs.prod + p % cs.prod
        < (c - 1 - p / cs.prod) * cs.prod + cs.prod := Nat.add_lt_add_left hmodlt _
      _ = (c - 1 - p / cs.prod + 1) * cs.prod := by ring
      _ ≤ c * cs.prod := by
          refine Nat.mul_le_mul_right _ ?_
          calc c - 1 - p / cs.prod + 1 ≤ c - 1 + 1 :=
              Nat.add_le_add_right (Nat.sub_le _ _) 1
            _ = c := Nat.succ_pred_eq_of_pos hc
  rw [reversedView_getElem hlen2 h1,
    List.getD_eq_getElem _ _ (by rw [reversedView_length, hlen1]; exact hq),
    reversedView_getElem hlen1]
  have hqdiv : ((c - 1 - p / cs.prod) * cs.prod + p % cs.prod) / cs.prod
      = c - 1 - p / cs.prod := by
    rw [Nat.mul_comm, Nat.mul_add_div hsz, Nat.div_eq_of_lt hmodlt, Nat.add_zero]
  have hqmod : ((c - 1 - p / cs.prod) * cs.prod + p % cs.prod) % cs.prod
      = p % cs.prod := by
    rw [Nat.mul_comm, Nat.mul_add_mod, Nat.mod_eq_of_lt hmodlt]
  rw [hqdiv, hqmod, Nat.sub_sub_self (Nat.le_sub_one_of_lt hdiv),
    Nat.div_add_mod' p cs.prod, List.getD_eq_getElem _ _ h2]

lemma reversedView_short_identity (c : Nat) (cs : List Nat) (data : List α)
    (hlen : data.length = (c :: cs).prod) (hc : c ≤ 1) :
    reversedView c cs data = data := by
  rw [List.prod_cons] at hlen
  match c, hc with
  | 0, _ =>
    rw [Nat.zero_mul] at hlen
    rw [List.length_eq_zero.mp hlen]
    simp [reversedView]
  | 1, _ =>
    apply List.ext_getElem (by rw [reversedView_length])
    intro p h1 h2
    have hlen1 : data.length = 1 * cs.prod := by rw [hlen, Nat.one_mul]
    have hp : p < cs.prod := by rw [hlen, Nat.one_mul] at h2; exact h2
    rw [reversedView_getElem hlen1 h1]
    simp only [Nat.sub_self, Nat.zero_sub, Nat.zero_mul, Nat.zero_add]
    rw [Nat.mod_eq_of_lt hp, List.getD_eq_getElem _ _ h2]

lemma reverse_cons_eq (c : Nat) (cs : List Nat) (data : List α) :
    reverse (c :: cs) data
      = if 1 ≤ c / 2 ∧ data.length ≤ (c - 1) * cs.prod then none
        else some (reversedView c cs data) := rfl

lemma reverse_no_panic {c : Nat} {cs : List Nat} {data : List α}
    (hlen : data.length = (c :: cs).prod) (hcond : c ≤ 1 ∨ cs.prod ≠ 0) :
    reverse (c :: cs) data = some (reversedView c cs data) := by
  rw [reverse_cons_eq, if_neg ?_]
  rintro ⟨hhalf, hle⟩
  have hc2 : 2 ≤ c := by
    by_contra hlt
    rw [Nat.div_eq_of_lt (by omega)] at hhalf
    omega
  rcases hcond with h | h
  · omega
  · rw [List.prod_cons] at hlen
    have hlt : (c - 1) * cs.prod < c * cs.prod :=
      (Nat.mul_lt_mul_right (Nat.pos_of_ne_zero h)).mpr (by omega)
    omega

end ReverseLemmas

/-- Counterexample for C4: shape `[2, 0]` with the (invariant-
satisfying) empty buffer makes the swap loop evaluate `&mut data[0]`
on an empty slice — a Rust panic, embedded as `none` — so reversal has
no result there, let alone an involutive one. -/
theorem claim4_reverse_involution_cex :
    ([] : List Nat).length = List.prod [2, 0]
    ∧ reverse [2, 0] ([] : List Nat) = none := by
  refine ⟨rfl, ?_⟩
  rw [reverse_cons_eq, if_pos ⟨by decide, by decide⟩]

/-- C4 (amended): on an invariant-satisfying buffer whose leading axis
is ≤ 1 or whose cell size is nonzero, reversal succeeds and is an
involution; it is the identity on rank-0 arrays and on arrays with
leading axis ≤ 1; and `Value::reverse` leaves non-array values (bare
numbers and characters) unchanged.  The proviso is forced: a leading
axis ≥ 2 combined with cell size 0 (e.g. shape `[2, 0]`) makes the
swap loop index an empty buffer out of bounds. -/
theorem claim4_reverse_involution {α : Type} [Inhabited α] :
    (∀ (shape : List Nat) (data : List α), data.length = shape.prod →
        (shape.headD 1 ≤ 1 ∨ (shape.drop 1).prod ≠ 0) →
        ∃ out, reverse shape data = some out ∧ reverse shape out = some data)
    ∧ (∀ data : List α, reverse [] data = some data)
    ∧ (∀ (c : Nat) (cs : List Nat) (data : List α),
        data.length = (c :: cs).prod → c ≤ 1 →
        reverse (c :: cs) data = some data)
    ∧ (∀ v : Value, v.isArray = false → Value.reverse v = some v) := by
  refine ⟨?_, fun _ => rfl, ?_, ?_⟩
  · intro shape data hlen hcond
    cases shape with
    | nil => exact ⟨data, rfl, rfl⟩
    | cons c cs =>
      have hcond' : c ≤ 1 ∨ cs.prod ≠ 0 := hcond
      refine ⟨reversedView c cs data, reverse_no_panic hlen hcond', ?_⟩
      have hlen1 : data.length = c * cs.prod := by rw [hlen, List.prod_cons]
      have hlen2 : (reversedView c cs data).length = (c :: cs).prod := by
        rw [reversedView_length]; exact hlen
      rw [reverse_no_panic hlen2 hcond', reversedView_involution hlen1]
  · intro c cs data hlen hc
    rw [reverse_no_panic hlen (Or.inl hc),
      reversedView_short_identity c cs data hlen hc]
  · intro v hv
    cases v with
    | num q => rfl
    | char ch => rfl
    | arr s d => simp [Value.isArray] at hv

/-- Witness for C4: a shape-`[2, 3]` buffer of six numbers. -/
theorem claim4_reverse_involution_witness :
    ([10, 20, 30, 40, 50, 60] : List Nat).length = List.prod [2, 3]
    ∧ ∃ out, reverse [2, 3] ([10, 20, 30, 40, 50, 60] : List Nat) = some out
        ∧ reverse [2, 3] out = some [10, 20, 30, 40, 50, 60] :=
  ⟨by decide,
    claim4_reverse_involution.1 [2, 3] _ (by decide) (Or.inr (by decide))⟩

section ForceLengthLemmas

variable {α : Type}

lemma force_length_loop_spec (orig : List α) (horig : orig ≠ []) (n : Nat) :
    ∀ (d : List α) (i : Nat), i + orig.length = d.length →
      (∀ j, j < d.length → d[j]? = orig[j % orig.length]?) →
      ∃ out, force_length_loop n d i = some out
        ∧ out.length = max d.length n
        ∧ ∀ j, j < out.length → out[j]? = orig[j % orig.length]? := by
  intro d i hi hinv
  have horiglen : 0 < orig.length := List.length_pos.mpr horig
  obtain ⟨k, hk⟩ : ∃ k, n - d.length = k := ⟨_, rfl⟩
  induction k generalizing d i with
  | zero =>
    have hge : ¬ d.length < n := by omega
    rw [force_length_loop, if_neg hge]
    exact ⟨d, rfl, by omega, hinv⟩
  | succ k ih =>
    have hlt : d.length < n := by omega
    have hi_lt : i < d.length := by omega
    rw [force_length_loop, if_pos hlt, List.getElem?_eq_getElem hi_lt]
    have hinv' : ∀ j, j < (d ++ [d[i]]).length →
        (d ++ [d[i]])[j]? = orig[j % orig.length]? := by
      intro j hj
      simp only [List.length_append, List.length_cons, List.length_nil] at hj
      rcases Nat.lt_or_ge j d.length with hjd | hjd
      · rw [List.getElem?_append_left hjd]
        exact hinv j hjd
      · have hje : j = d.length := by omega
        rw [hje, List.getElem?_concat_length]
        have : orig[d.length % orig.length]? = orig[i % orig.length]? := by
          rw [← hi, Nat.add_mod_right]
        rw [this, ← hinv i hi_lt, List.getElem?_eq_getElem hi_lt]
    have hlen' : (i + 1) + orig.length = (d ++ [d[i]]).length := by
      simp only [List.length_append, List.length_cons, List.length_nil]
      omega
    have hk' : n - (d ++ [d[i]]).length = k := by
      simp only [List.length_append, List.length_cons, List.length_nil]
      omega
    obtain ⟨out, hout, hlen, hv⟩ := ih (d ++ [d[i]]) (i + 1) hlen' hinv' hk'
    refine ⟨out, hout, ?_, hv⟩
    simp only [List.length_append, List.length_cons, List.length_nil] at hlen
    omega

end ForceLengthLemmas

/-- Counterexample for C7: growing an empty vector indexes out of bounds
(`data[0]` with `data` empty), a Rust panic, so no grown result exists. -/
theorem claim7_force_length_cex : force_length ([] : List Nat) 1 = none := by
  rw [force_length, if_pos (by decide), force_length_loop, if_pos (by decide)]
  rfl

/-- C7 (amended): when the target exceeds the current length and the
data is nonempty, `force_length` keeps the original elements in place
and appends cyclic repeats, the element at `i` being the original at
`i % originalLength`; when the target is smaller it truncates; when
equal it is a no-op.  The nonemptiness proviso is forced: growing an
empty vector panics on its first indexing. -/
theorem claim7_force_length {α : Type} (data : List α) (n : Nat) :
    (data.length < n → data ≠ [] →
      ∃ out, force_length data n = some out ∧ out.length = n
        ∧ (∀ j, j < data.length → out[j]? = data[j]?)
        ∧ (∀ j, j < n → out[j]? = data[j % data.length]?))
    ∧ (n < data.length → force_length data n = some (data.take n))
    ∧ (n = data.length → force_length data n = some data) := by
  refine ⟨?_, ?_, ?_⟩
  · intro hlt hne
    have hinv : ∀ j, j < data.length → data[j]? = data[j % data.length]? := by
      intro j hj
      rw [Nat.mod_eq_of_lt hj]
    obtain ⟨out, hout, hlen, hv⟩ :=
      force_length_loop_spec data hne n data 0 (by omega) hinv
    have hmax : max data.length n = n := by omega
    rw [hmax] at hlen
    refine ⟨out, ?_, hlen, ?_, ?_⟩
    · rw [force_length, if_pos hlt]
      exact hout
    · intro j hj
      rw [hv j (by omega), Nat.mod_eq_of_lt hj]
    · intro j hj
      exact hv j (by omega)
  · intro hlt
    rw [force_length, if_neg (by omega), if_pos hlt]
  · intro heq
    rw [force_length, if_neg (by omega), if_neg (by omega)]

/-- Witness for C7: growing `[7, 8]` to length 5 and truncating to 1. -/
theorem claim7_force_length_witness :
    (∃ out, force_length ([7, 8] : List Nat) 5 = some out ∧ out.length = 5
      ∧ (∀ j, j < ([7, 8] : List Nat).length → out[j]? = ([7, 8] : List Nat)[j]?)
      ∧ (∀ j, j < 5 → out[j]? = ([7, 8] : List Nat)[j % ([7, 8] : List Nat).length]?))
    ∧ force_length ([7, 8] : List Nat) 1 = some [7] :=
  ⟨(claim7_force_length [7, 8] 5).1 (by decide) (by decide),
    ((claim7_force_length ([7, 8] : List Nat) 1).2.1 (by decide)).trans (by rfl)⟩

section ChunkLemmas

variable {α : Type}

lemma chunksExact_zero (data : List α) : chunksExact 0 data = [] := by
  rw [chunksExact]
  simp

lemma chunksExact_small {sz : Nat} {data : List α} (h : data.length < sz) :
    chunksExact sz data = [] := by
  rw [chunksExact, dif_pos (Or.inr h)]

lemma chunksExact_cons {sz : Nat} (hsz : sz ≠ 0) {data : List α} (hle : sz ≤ data.length) :
    chunksExact sz data = data.take sz :: chunksExact sz (data.drop sz) := by
  rw [chunksExact]
  rw [dif_neg ?_]
  rintro (h | h)
  · exact hsz h
  · omega

lemma length_chunksExact (sz : Nat) (hsz : sz ≠ 0) (data : List α) :
    (chunksExact sz data).length = data.length / sz := by
  suffices h : ∀ (n : Nat) (data : List α), data.length = n →
      (chunksExact sz data).length = data.length / sz from h _ data rfl
  intro n
  induction n using Nat.strong_induction_on with
  | _ n ih =>
    intro data hn
    rcases Nat.lt_or_ge data.length sz with hlt | hge
    · rw [chunksExact_small hlt, Nat.div_eq_of_lt hlt]
      rfl
    · rw [chunksExact_cons hsz hge, List.length_cons,
        ih (data.drop sz).length (by simp; omega) _ rfl, List.length_drop, eq_comm,
        Nat.div_eq_sub_div (Nat.pos_of_ne_zero hsz) hge]

lemma chunksExact_mem_length (sz : Nat) (data : List α) :
    ∀ c ∈ chunksExact sz data, c.length = sz := by
  suffices h : ∀ (n : Nat) (data : List α), data.length = n →
      ∀ c ∈ chunksExact sz data, c.length = sz from h _ data rfl
  intro n
  induction n using Nat.strong_induction_on with
  | _ n ih =>
    intro data hn c hc
    rcases Nat.eq_zero_or_pos sz with hsz | hsz
    · rw [hsz, chunksExact_zero] at hc
      simp at hc
    · rcases Nat.lt_or_ge data.length sz with hlt | hge
      · rw [chunksExact_small hlt] at hc
        simp at hc
      · rw [chunksExact_cons (by omega) hge] at hc
        rcases List.mem_cons.mp hc with rfl | hc'
        · rw [List.length_take]
          omega
        · exact ih (data.drop sz).length (by simp; omega) _ rfl c hc'

lemma flatten_chunksExact (sz : Nat) (hsz : sz ≠ 0) (data : List α)
    (hdvd : sz ∣ data.length) : (chunksExact sz data).flatten = data := by
  suffices h : ∀ (n : Nat) (data : List α), data.length = n → sz ∣ data.length →
      (chunksExact sz data).flatten = data from h _ data rfl hdvd
  intro n
  induction n using Nat.strong_induction_on with
  | _ n ih =>
    intro data hn hdvd
    rcases Nat.lt_or_ge data.length sz with hlt | hge
    · have h0 : data.length = 0 := Nat.eq_zero_of_dvd_of_lt hdvd hlt
      rw [List.length_eq_zero.mp h0, chunksExact_small (by simpa [h0] using hlt)]
      rfl
    · rw [chunksExact_cons hsz hge, List.flatten_cons,
        ih (data.drop sz).length (by simp; omega) _ rfl
          (by rw [List.length_drop]; exact Nat.dvd_sub' hdvd dvd_rfl),
        List.take_append_drop]

lemma chunksExact_append (sz : Nat) (hsz : sz ≠ 0) (a b : List α)
    (hdvd : sz ∣ a.length) :
    chunksExact sz (a ++ b) = chunksExact sz a ++ chunksExact sz b := by
  suffices h : ∀ (n : Nat) (a : List α), a.length = n → sz ∣ a.length →
      chunksExact sz (a ++ b) = chunksExact sz a ++ chunksExact sz b from h _ a rfl hdvd
  intro n
  induction n using Nat.strong_induction_on with
  | _ n ih =>
    intro a hn hdvd
    rcases Nat.eq_zero_or_pos a.length with h0 | hpos
    · rw [List.length_eq_zero.mp h0, List.nil_append,
        chunksExact_small (show ([] : List α).length < sz by
          simpa using Nat.pos_of_ne_zero hsz),
        List.nil_append]
    · have hge : sz ≤ a.length := Nat.le_of_dvd hpos hdvd
      have hge' : sz ≤ (a ++ b).length := by
        rw [List.length_append]
        omega
      rw [chunksExact_cons hsz hge', chunksExact_cons hsz hge,
        List.take_append_of_le_length hge, List.drop_append_of_le_length hge,
        List.cons_append,
        ih (a.drop sz).length (by simp; omega) _ rfl
          (by rw [List.length_drop]; exact Nat.dvd_sub' hdvd dvd_rfl)]

lemma flatten_length_const (sz : Nat) (M : List (List α))
    (h : ∀ c ∈ M, c.length = sz) : M.flatten.length = M.length * sz := by
  induction M with
  | nil => simp
  | cons c M ih =>
    rw [List.flatten_cons, List.length_append, List.length_cons,
      h c (List.mem_cons_self c M), ih (fun d hd => h d (List.mem_cons_of_mem c hd))]
    ring

lemma mergeChunks_nil_left (cmp : α → α → Ordering) (R : List (List α)) :
    mergeChunks cmp [] R = R := by
  induction R with
  | nil => simp [mergeChunks]
  | cons r rs ih => simp [mergeChunks, ih]

lemma mergeChunks_nil_right (cmp : α → α → Ordering) (L : List (List α)) :
    mergeChunks cmp L [] = L := by
  induction L with
  | nil => simp [mergeChunks]
  | cons l ls ih => simp [mergeChunks, ih]

lemma mergeChunks_mem (cmp : α → α → Ordering) :
    ∀ (L R : List (List α)) (c : List α), c ∈ mergeChunks cmp L R → c ∈ L ∨ c ∈ R := by
  intro L
  induction L with
  | nil =>
    intro R c hc
    rw [mergeChunks_nil_left] at hc
    exact Or.inr hc
  | cons l ls ihL =>
    intro R
    induction R with
    | nil =>
      intro c hc
      rw [mergeChunks_nil_right] at hc
      exact Or.inl hc
    | cons r rs ihR =>
      intro c hc
      simp only [mergeChunks] at hc
      by_cases hlt : lexCmp cmp l r = .lt
      · rw [if_pos hlt] at hc
        rcases List.mem_cons.mp hc with rfl | hc'
        · exact Or.inl (List.mem_cons_self _ _)
        · rcases ihL (r :: rs) c hc' with h | h
          · exact Or.inl (List.mem_cons_of_mem _ h)
          · exact Or.inr h
      · rw [if_neg hlt] at hc
        rcases List.mem_cons.mp hc with rfl | hc'
        · exact Or.inr (List.mem_cons_self _ _)
        · rcases ihR c hc' with h | h
          · exact Or.inl h
          · exact Or.inr (List.mem_cons_of_mem _ h)

lemma mergeChunks_length (cmp : α → α → Ordering) :
    ∀ (L R : List (List α)),
      (mergeChunks cmp L R).length = L.length + R.length := by
  intro L
  induction L with
  | nil =>
    intro R
    rw [mergeChunks_nil_left]
    simp
  | cons l ls ihL =>
    intro R
    induction R with
    | nil =>
      rw [mergeChunks_nil_right]
      simp
    | cons r rs ihR =>
      simp only [mergeChunks]
      by_cases hlt : lexCmp cmp l r = .lt
      · rw [if_pos hlt, List.length_cons, ihL (r :: rs)]
        simp only [List.length_cons]
        omega
      · rw [if_neg hlt, List.length_cons, ihR]
        simp only [List.length_cons]
        omega

end ChunkLemmas

/-- The cell order induced by a comparator: not strictly greater under
the lexicographic cell comparison (the sortedness notion of §4.4). -/
def cellLE {β : Type} [LinearOrder β] (l r : List β) : Prop :=
  lexCmp compare l r ≠ .gt

section LexLemmas

variable {β : Type} [LinearOrder β]

lemma lexCmp_eq_of_eq :
    ∀ {l r : List β}, l.length = r.length → lexCmp compare l r = .eq → l = r := by
  intro l
  induction l with
  | nil =>
    intro r hlen _
    cases r with
    | nil => rfl
    | cons y r' => simp at hlen
  | cons x l' ih =>
    intro r hlen heq
    cases r with
    | nil => simp at hlen
    | cons y r' =>
      simp only [List.length_cons, Nat.add_right_cancel_iff] at hlen
      cases hcmp : compare x y with
      | lt => rw [lexCmp, hcmp] at heq; cases heq
      | gt => rw [lexCmp, hcmp] at heq; cases heq
      | eq =>
        rw [lexCmp, hcmp] at heq
        rw [compare_eq_iff_eq.mp hcmp, ih hlen heq]

lemma lexCmp_swap : ∀ l r : List β, lexCmp compare r l = (lexCmp compare l r).swap := by
  intro l
  induction l with
  | nil =>
    intro r
    cases r with
    | nil => rfl
    | cons y r' => rfl
  | cons x l' ih =>
    intro r
    cases r with
    | nil => rfl
    | cons y r' =>
      have hyx : compare y x = (compare x y).swap := (Batteries.OrientedCmp.symm x y).symm
      cases hcmp : compare x y with
      | lt => rw [lexCmp, hyx, hcmp, lexCmp, hcmp]; rfl
      | gt => rw [lexCmp, hyx, hcmp, lexCmp, hcmp]; rfl
      | eq => rw [lexCmp, hyx, hcmp, lexCmp, hcmp]; exact ih r'

lemma lexCmp_eq_of_not_gt_both {l r : List β} (hlen : l.length = r.length)
    (h1 : lexCmp compare l r ≠ .gt) (h2 : lexCmp compare r l ≠ .gt) : l = r := by
  rw [lexCmp_swap] at h2
  cases h : lexCmp compare l r with
  | lt => rw [h] at h2; exact absurd rfl h2
  | eq => exact lexCmp_eq_of_eq hlen h
  | gt => exact absurd h h1

lemma const_append_cons :
    ∀ (ls : List (List β)) (l : List β) (t : List (List β)),
      (∀ x ∈ ls, x = l) → ls ++ l :: t = l :: (ls ++ t) := by
  intro ls l t h
  induction ls with
  | nil => rfl
  | cons x ls ih =>
    have hx : x = l := h x (List.mem_cons_self x ls)
    subst hx
    rw [List.cons_append, ih (fun z hz => h z (List.mem_cons_of_mem x hz)),
      List.cons_append]

lemma mergeChunks_sorted_eq_append (sz : Nat) :
    ∀ (L R : List (List β)),
      (∀ c ∈ L, c.length = sz) → (∀ c ∈ R, c.length = sz) →
      L.Pairwise cellLE →
      (∀ l ∈ L, ∀ r ∈ R, cellLE l r) →
      mergeChunks compare L R = L ++ R := by
  intro L
  induction L with
  | nil =>
    intro R _ _ _ _
    rw [mergeChunks_nil_left, List.nil_append]
  | cons l ls ihL =>
    intro R
    induction R with
    | nil =>
      intro _ _ _ _
      rw [mergeChunks_nil_right, List.append_nil]
    | cons r rs ihR =>
      intro hL hR hsort hcross
      have hlr : cellLE l r :=
        hcross l (List.mem_cons_self l ls) r (List.mem_cons_self r rs)
      simp only [mergeChunks]
      by_cases hlt : lexCmp compare l r = .lt
      · rw [if_pos hlt, List.cons_append]
        congr 1
        exact ihL (r :: rs) (fun c hc => hL c (List.mem_cons_of_mem l hc)) hR
          (List.Pairwise.of_cons hsort)
          (fun a ha b hb => hcross a (List.mem_cons_of_mem l ha) b hb)
      · rw [if_neg hlt]
        have heq : lexCmp compare l r = .eq := by
          cases h : lexCmp compare l r with
          | lt => exact absurd h hlt
          | eq => rfl
          | gt => exact absurd h hlr
        have hleq : l = r := lexCmp_eq_of_eq
          (by rw [hL l (List.mem_cons_self l ls), hR r (List.mem_cons_self r rs)]) heq
        have hls : ∀ x ∈ ls, x = l := by
          intro x hx
          have ha : cellLE l x := (List.pairwise_cons.mp hsort).1 x hx
          have hb : cellLE x r :=
            hcross x (List.mem_cons_of_mem l hx) r (List.mem_cons_self r rs)
          rw [← hleq] at hb
          exact lexCmp_eq_of_not_gt_both
            (by rw [hL x (List.mem_cons_of_mem l hx), hL l (List.mem_cons_self l ls)])
            hb ha
        have hstep : mergeChunks compare (l :: ls) rs = (l :: ls) ++ rs :=
          ihR (fun c hc => hL c hc) (fun c hc => hR c (List.mem_cons_of_mem r hc))
            hsort (fun a ha b hb => hcross a ha b (List.mem_cons_of_mem r hb))
        rw [hstep, ← hleq, List.cons_append, List.cons_append,
          const_append_cons ls l rs hls]

end LexLemmas

section MergeSortLemmas

lemma merge_sort_chunks_total {α : Type} (cmp : α → α → Ordering) (sz : Nat)
    (hsz : sz ≠ 0) :
    ∀ data : List α, sz ∣ data.length → data ≠ [] →
      ∃ out, merge_sort_chunks cmp sz data = some out ∧ out.length = data.length := by
  suffices h : ∀ (n : Nat) (data : List α), data.length = n → sz ∣ data.length →
      data ≠ [] →
      ∃ out, merge_sort_chunks cmp sz data = some out ∧ out.length = data.length from
    fun data => h data.length data rfl
  intro n
  induction n using Nat.strong_induction_on with
  | _ n ih =>
    intro data hn hdvd hne
    have hszpos : 0 < sz := Nat.pos_of_ne_zero hsz
    have hlen0 : 0 < data.length := List.length_pos.mpr hne
    have hq : data.length / sz * sz = data.length := Nat.div_mul_cancel hdvd
    have hcells : 0 < data.length / sz := Nat.div_pos (Nat.le_of_dvd hlen0 hdvd) hszpos
    rw [merge_sort_chunks, dif_neg hsz, dif_neg (Nat.pos_iff_ne_zero.mp hcells)]
    by_cases h1 : data.length / sz = 1
    · rw [dif_pos h1]
      exact ⟨data, rfl, rfl⟩
    · rw [dif_neg h1]
      set q := data.length / sz with hqdef
      have hq2 : 2 ≤ q := by omega
      have hmid1 : 1 ≤ q / 2 := (Nat.one_le_div_iff (by norm_num)).mpr hq2
      have hmidlt : q / 2 < q := Nat.div_lt_self (by omega) (by norm_num)
      have hmidmul : q / 2 * sz < q * sz := (Nat.mul_lt_mul_right hszpos).mpr hmidlt
      have hmidpos : 0 < q / 2 * sz := Nat.mul_pos hmid1 hszpos
      have htakelen : (data.take (q / 2 * sz)).length = q / 2 * sz := by
        rw [List.length_take]
        omega
      have hdroplen : (data.drop (q / 2 * sz)).length = (q - q / 2) * sz := by
        rw [List.length_drop, Nat.sub_mul]
        omega
      have htake_dvd : sz ∣ (data.take (q / 2 * sz)).length := by
        rw [htakelen]
        exact dvd_mul_left sz _
      have hdrop_dvd : sz ∣ (data.drop (q / 2 * sz)).length := by
        rw [hdroplen]
        exact dvd_mul_left sz _
      have htake_ne : data.take (q / 2 * sz) ≠ [] := by
        rw [← List.length_pos, htakelen]
        exact hmidpos
      have hdrop_ne : data.drop (q / 2 * sz) ≠ [] := by
        rw [← List.length_pos, hdroplen]
        exact Nat.mul_pos (by omega) hszpos
      obtain ⟨l, hl, hllen⟩ :=
        ih (data.take (q / 2 * sz)).length (by rw [htakelen]; omega) _ rfl
          htake_dvd htake_ne
      obtain ⟨r, hr, hrlen⟩ :=
        ih (data.drop (q / 2 * sz)).length
          (by rw [hdroplen, Nat.sub_mul]; omega) _ rfl hdrop_dvd hdrop_ne
      rw [hl, hr]
      have hmerge_mem : ∀ c ∈ mergeChunks cmp (chunksExact sz l) (chunksExact sz r),
          c.length = sz := by
        intro c hc
        rcases mergeChunks_mem cmp _ _ c hc with h | h
        · exact chunksExact_mem_length sz l c h
        · exact chunksExact_mem_length sz r c h
      have htmplen :
          (mergeChunks cmp (chunksExact sz l) (chunksExact sz r)).flatten.length
            = data.length := by
        rw [flatten_length_const sz _ hmerge_mem, mergeChunks_length,
          length_chunksExact sz hsz, length_chunksExact sz hsz, hllen, htakelen,
          hrlen, hdroplen, Nat.mul_div_cancel _ hszpos, Nat.mul_div_cancel _ hszpos]
        have hsum : q / 2 + (q - q / 2) = q := by omega
        rw [hsum, hq]
      refine ⟨(mergeChunks cmp (chunksExact sz l) (chunksExact sz r)).flatten, ?_,
        htmplen⟩
      show (if (mergeChunks cmp (chunksExact sz l) (chunksExact sz r)).flatten.length
            = data.length then
          some (mergeChunks cmp (chunksExact sz l) (chunksExact sz r)).flatten
        else none)
        = some (mergeChunks cmp (chunksExact sz l) (chunksExact sz r)).flatten
      rw [if_pos htmplen]

lemma merge_sort_chunks_sorted_id {β : Type} [LinearOrder β] (sz : Nat) (hsz : sz ≠ 0) :
    ∀ data : List β, sz ∣ data.length → data ≠ [] →
      (chunksExact sz data).Pairwise cellLE →
      merge_sort_chunks compare sz data = some data := by
  suffices h : ∀ (n : Nat) (data : List β), data.length = n → sz ∣ data.length →
      data ≠ [] → (chunksExact sz data).Pairwise cellLE →
      merge_sort_chunks compare sz data = some data from
    fun data => h data.length data rfl
  intro n
  induction n using Nat.strong_induction_on with
  | _ n ih =>
    intro data hn hdvd hne hsorted
    have hszpos : 0 < sz := Nat.pos_of_ne_zero hsz
    have hlen0 : 0 < data.length := List.length_pos.mpr hne
    have hq : data.length / sz * sz = data.length := Nat.div_mul_cancel hdvd
    have hcells : 0 < data.length / sz := Nat.div_pos (Nat.le_of_dvd hlen0 hdvd) hszpos
    rw [merge_sort_chunks, dif_neg hsz, dif_neg (Nat.pos_iff_ne_zero.mp hcells)]
    by_cases h1 : data.length / sz = 1
    · rw [dif_pos h1]
    · rw [dif_neg h1]
      set q := data.length / sz with hqdef
      have hq2 : 2 ≤ q := by omega
      have hmid1 : 1 ≤ q / 2 := (Nat.one_le_div_iff (by norm_num)).mpr hq2
      have hmidlt : q / 2 < q := Nat.div_lt_self (by omega) (by norm_num)
      have hmidmul : q / 2 * sz < q * sz := (Nat.mul_lt_mul_right hszpos).mpr hmidlt
      have hmidpos : 0 < q / 2 * sz := Nat.mul_pos hmid1 hszpos
      have htakelen : (data.take (q / 2 * sz)).length = q / 2 * sz := by
        rw [List.length_take]
        omega
      have hdroplen : (data.drop (q / 2 * sz)).length = (q - q / 2) * sz := by
        rw [List.length_drop, Nat.sub_mul]
        omega
      have htake_dvd : sz ∣ (data.take (q / 2 * sz)).length := by
        rw [htakelen]
        exact dvd_mul_left sz _
      have hdrop_dvd : sz ∣ (data.drop (q / 2 * sz)).length := by
        rw [hdroplen]
        exact dvd_mul_left sz _
      have htake_ne : data.take (q / 2 * sz) ≠ [] := by
        rw [← List.length_pos, htakelen]
        exact hmidpos
      have hdrop_ne : data.drop (q / 2 * sz) ≠ [] := by
        rw [← List.length_pos, hdroplen]
        exact Nat.mul_pos (by omega) hszpos
      have hsplit : chunksExact sz data
          = chunksExact sz (data.take (q / 2 * sz))
            ++ chunksExact sz (data.drop (q / 2 * sz)) := by
        conv_lhs => rw [← List.take_append_drop (q / 2 * sz) data]
        exact chunksExact_append sz hsz _ _ htake_dvd
      rw [hsplit] at hsorted
      obtain ⟨hsortL, hsortR, hcross⟩ := List.pairwise_append.mp hsorted
      have hlId : merge_sort_chunks compare sz (data.take (q / 2 * sz))
          = some (data.take (q / 2 * sz)) :=
        ih (data.take (q / 2 * sz)).length (by rw [htakelen]; omega) _ rfl
          htake_dvd htake_ne hsortL
      have hrId : merge_sort_chunks compare sz (data.drop (q / 2 * sz))
          = some (data.drop (q / 2 * sz)) :=
        ih (data.drop (q / 2 * sz)).length
          (by rw [hdroplen, Nat.sub_mul]; omega) _ rfl hdrop_dvd hdrop_ne hsortR
      rw [hlId, hrId]
      have hmerge : mergeChunks compare (chunksExact sz (data.take (q / 2 * sz)))
            (chunksExact sz (data.drop (q / 2 * sz)))
          = chunksExact sz (data.take (q / 2 * sz))
            ++ chunksExact sz (data.drop (q / 2 * sz)) :=
        mergeChunks_sorted_eq_append sz _ _ (chunksExact_mem_length sz _)
          (chunksExact_mem_length sz _) hsortL hcross
      show (if (mergeChunks compare (chunksExact sz (data.take (q / 2 * sz)))
              (chunksExact sz (data.drop (q / 2 * sz)))).flatten.length
            = data.length then
          some (mergeChunks compare (chunksExact sz (data.take (q / 2 * sz)))
            (chunksExact sz (data.drop (q / 2 * sz)))).flatten
        else none)
        = some data
      rw [hmerge, ← hsplit, flatten_chunksExact sz hsz data hdvd, if_pos rfl]

end MergeSortLemmas

/-- C5: in the merge step of `merge_sort_chunks`, whenever the front
cells of the two runs compare fully equal under the lexicographic cell
comparison, the right-hand run's cell is emitted first; consequently
sorting an array of two cells that compare equal reverses their original
relative order — the sort is right-biased, not left-stable. -/
theorem claim5_merge_right_biased {α : Type} :
    (∀ (cmp : α → α → Ordering) (l r : List α) (ls rs : List (List α)),
        lexCmp cmp l r = .eq →
        mergeChunks cmp (l :: ls) (r :: rs) = r :: mergeChunks cmp (l :: ls) rs)
    ∧ (∀ (cmp : α → α → Ordering) (x y : α), cmp x y = .eq →
        sort_array cmp [2] [x, y] = some [y, x]) := by
  constructor
  · intro cmp l r ls rs h
    simp only [mergeChunks]
    rw [if_neg (by rw [h]; exact fun hh => Ordering.noConfusion hh)]
  · intro cmp x y h
    rw [sort_array, if_neg (by simp),
      show (List.drop 1 ([2] : List Nat)).prod = 1 from rfl]
    have hone : ∀ z : α, merge_sort_chunks cmp 1 [z] = some [z] := by
      intro z
      rw [merge_sort_chunks, dif_neg (by decide), dif_neg (by simp),
        dif_pos (by simp)]
    have htake : List.take ([x, y].length / 1 / 2 * 1) [x, y] = [x] := by simp
    have hdrop : List.drop ([x, y].length / 1 / 2 * 1) [x, y] = [y] := by simp
    rw [merge_sort_chunks, dif_neg (by decide), dif_neg (by simp),
      dif_neg (by simp), htake, hdrop, hone x, hone y]
    have hchx : chunksExact 1 [x] = [[x]] := by
      rw [chunksExact_cons (by decide) (by simp),
        chunksExact_small (show (List.drop 1 [x]).length < 1 by simp)]
      simp
    have hchy : chunksExact 1 [y] = [[y]] := by
      rw [chunksExact_cons (by decide) (by simp),
        chunksExact_small (show (List.drop 1 [y]).length < 1 by simp)]
      simp
    have hlex : lexCmp cmp [x] [y] = .eq := by
      show (match cmp x y with | .eq => lexCmp cmp [] [] | o => o) = .eq
      rw [h]
      rfl
    have hmerge : mergeChunks cmp (chunksExact 1 [x]) (chunksExact 1 [y])
        = [[y], [x]] := by
      rw [hchx, hchy]
      simp [mergeChunks, hlex]
    show (if (mergeChunks cmp (chunksExact 1 [x]) (chunksExact 1 [y])).flatten.length
          = [x, y].length then
        some (mergeChunks cmp (chunksExact 1 [x]) (chunksExact 1 [y])).flatten
      else none)
      = some [y, x]
    rw [hmerge, show ([[y], [x]] : List (List α)).flatten = [y, x] from rfl,
      if_pos (by simp)]

/-- Witness for C5: a comparator that deems everything equal; the merge
emits the right cell first and the two-cell sort swaps the cells. -/
theorem claim5_merge_right_biased_witness :
    mergeChunks (fun (_ _ : Nat) => Ordering.eq) [[1]] [[2]]
      = [2] :: mergeChunks (fun (_ _ : Nat) => Ordering.eq) [[1]] []
    ∧ sort_array (fun (_ _ : Nat) => Ordering.eq) [2] [5, 7] = some [7, 5] :=
  ⟨claim5_merge_right_biased.1 (fun _ _ => Ordering.eq) [1] [2] [] [] (by rfl),
    claim5_merge_right_biased.2 (fun _ _ => Ordering.eq) 5 7 (by rfl)⟩

/-- Counterexample for C6: the empty array of shape `[0]` satisfies the
invariant and is vacuously sorted, yet `sort_array` hits the
`assert_ne!(cells, 0)` and produces no result instead of the same
array. -/
theorem claim6_sort_idempotent_cex :
    ([] : List Nat).length = List.prod [0]
    ∧ (chunksExact (List.prod (List.drop 1 [0])) ([] : List Nat)).Pairwise cellLE
    ∧ sort_array (compare : Nat → Nat → Ordering) [0] ([] : List Nat) = none := by
  refine ⟨rfl, ?_, ?_⟩
  · rw [chunksExact_small (show (([] : List Nat)).length < List.prod (List.drop 1 [0])
      by decide)]
    exact List.Pairwise.nil
  · rw [sort_array, if_neg (by simp)]
    show merge_sort_chunks compare 1 ([] : List Nat) = none
    rw [merge_sort_chunks, dif_neg (by decide), dif_pos (by decide)]

/-- C6 (amended): for a comparator that is the `compare` of a linear
order, sorting an already-sorted array with a nonempty buffer yields the
same array, and `sort_array` on a rank-0 array is a no-op.  The
nonemptiness proviso is forced: an empty (leading-axis-0) array fails
the `cells ≠ 0` assertion instead of being returned unchanged. -/
theorem claim6_sort_sorted_identity {β : Type} [LinearOrder β] :
    (∀ (shape : List Nat) (data : List β),
        data.length = shape.prod → data ≠ [] →
        (chunksExact ((shape.drop 1).prod) data).Pairwise cellLE →
        sort_array compare shape data = some data)
    ∧ (∀ data : List β, sort_array compare [] data = some data) := by
  constructor
  · intro shape data hinv hne hsorted
    cases shape with
    | nil => rw [sort_array, if_pos rfl]
    | cons c cs =>
      rw [sort_array, if_neg (by simp)]
      have hlen : data.length = c * cs.prod := by rw [hinv, List.prod_cons]
      have hlenpos : 0 < data.length := List.length_pos.mpr hne
      have hszne : cs.prod ≠ 0 := by
        intro h0
        rw [h0, Nat.mul_zero] at hlen
        omega
      have hdvd : cs.prod ∣ data.length := by
        rw [hlen]
        exact dvd_mul_left _ _
      exact merge_sort_chunks_sorted_id cs.prod hszne data hdvd hne hsorted
  · intro data
    rw [sort_array, if_pos rfl]

/-- Witness for C6: the sorted two-cell vector `[3, 5]`. -/
theorem claim6_sort_sorted_identity_witness :
    sort_array compare [2] ([3, 5] : List Nat) = some [3, 5] := by
  have hch : chunksExact ((List.drop 1 [2]).prod) ([3, 5] : List Nat) = [[3], [5]] := by
    rw [show (List.drop 1 ([2] : List Nat)).prod = 1 from rfl,
      chunksExact_cons (by decide) (by decide),
      chunksExact_cons (by decide) (by decide),
      chunksExact_small (by decide)]
    rfl
  have hs : (chunksExact ((List.drop 1 [2]).prod) ([3, 5] : List Nat)).Pairwise cellLE := by
    rw [hch]
    refine List.Pairwise.cons ?_ (List.Pairwise.cons (by intro y hy; simp at hy)
      List.Pairwise.nil)
    intro y hy
    rw [List.mem_singleton.mp hy]
    show lexCmp compare [3] [5] ≠ .gt
    decide
  exact claim6_sort_sorted_identity.1 [2] [3, 5] (by decide) (by decide) hs

/-- Counterexample for C9: an empty array satisfying the invariant
(shape `[0, 3]`, empty buffer) makes `sort_array` fail the
`assert_ne!(cells, 0)` (a Rust abort, not an error value), and growing
an empty vector makes `force_length` index out of bounds. -/
theorem claim9_no_abort_cex :
    sort_array (compare : Nat → Nat → Ordering) [0, 3] ([] : List Nat) = none
    ∧ force_length ([] : List Nat) 1 = none := by
  constructor
  · rw [sort_array, if_neg (by simp)]
    show merge_sort_chunks compare 3 ([] : List Nat) = none
    rw [merge_sort_chunks, dif_neg (by decide), dif_pos (by decide)]
  · rw [force_length, if_pos (by decide), force_length_loop, if_pos (by decide)]
    rfl

/-- C9 (amended): `sort_array` returns a value (never aborts) on every
invariant-satisfying input whose buffer is nonempty or whose rank is 0,
and `force_length` returns a value whenever the data is nonempty or the
target does not exceed the current length.  The provisos are forced: an
empty array aborts the sort's `cells ≠ 0` assertion and growing an
empty vector panics on indexing. -/
theorem claim9_no_abort {α : Type} :
    (∀ (cmp : α → α → Ordering) (shape : List Nat) (data : List α),
        data.length = shape.prod → (shape = [] ∨ data ≠ []) →
        (sort_array cmp shape data).isSome = true)
    ∧ (∀ (d : List α) (n : Nat), (d ≠ [] ∨ n ≤ d.length) →
        (force_length d n).isSome = true) := by
  constructor
  · intro cmp shape data hinv hcase
    cases shape with
    | nil =>
      rw [sort_array, if_pos rfl]
      rfl
    | cons c cs =>
      have hne : data ≠ [] := by
        rcases hcase with h | h
        · exact absurd h (by simp)
        · exact h
      rw [sort_array, if_neg (by simp)]
      have hlen : data.length = c * cs.prod := by rw [hinv, List.prod_cons]
      have hlenpos : 0 < data.length := List.length_pos.mpr hne
      have hszne : cs.prod ≠ 0 := by
        intro h0
        rw [h0, Nat.mul_zero] at hlen
        omega
      have hdvd : cs.prod ∣ data.length := by
        rw [hlen]
        exact dvd_mul_left _ _
      obtain ⟨out, hout, _⟩ := merge_sort_chunks_total cmp cs.prod hszne data hdvd hne
      show (merge_sort_chunks cmp cs.prod data).isSome = true
      rw [hout]
      rfl
  · intro d n hcase
    by_cases hlt : d.length < n
    · have hne : d ≠ [] := by
        rcases hcase with h | h
        · exact h
        · exfalso
          omega
      have hinv0 : ∀ j, j < d.length → d[j]? = d[j % d.length]? := by
        intro j hj
        rw [Nat.mod_eq_of_lt hj]
      obtain ⟨out, hout, _, _⟩ := force_length_loop_spec d hne n d 0 (by omega) hinv0
      rw [force_length, if_pos hlt, hout]
      rfl
    · rw [force_length, if_neg hlt]
      by_cases h2 : n < d.length
      · rw [if_pos h2]
        rfl
      · rw [if_neg h2]
        rfl

/-- Witness for C9: sorting a two-element vector and growing `[1]`. -/
theorem claim9_no_abort_witness :
    (sort_array (compare : Nat → Nat → Ordering) [2] [4, 3]).isSome = true
    ∧ (force_length ([1] : List Nat) 3).isSome = true :=
  ⟨claim9_no_abort.1 compare [2] [4, 3] (by decide) (Or.inr (by decide)),
    claim9_no_abort.2 [1] 3 (Or.inl (by decide))⟩

section JoinLemmas

lemma toArr_wf (v : Value) (h : ValueWF v) :
    (Value.toArr v).data.length = (Value.toArr v).shape.prod := by
  cases h with
  | num q => rfl
  | char c => rfl
  | arr shape data hlen _ => exact hlen

lemma arr_prod_decomp (a : Arr) : a.shape.prod = a.len * a.cellShape.prod := by
  rcases a with ⟨shape, data⟩
  cases shape with
  | nil => simp [Arr.len, Arr.cellShape]
  | cons h t => simp [Arr.len, Arr.cellShape, List.prod_cons]

lemma len_toArr (v : Value) : (Value.toArr v).len = v.len := by
  cases v <;> rfl

lemma chunksExact_nil_any {α : Type} (sz : Nat) : chunksExact sz ([] : List α) = [] := by
  rcases Nat.eq_zero_or_pos sz with h | h
  · rw [h, chunksExact_zero]
  · exact chunksExact_small (by simpa using h)

end JoinLemmas

/-- C3: a successful `Value::join` of any tag combination produces an
array whose leading-axis length is the sum of the operands' lengths
(scalars counting 1), whose buffer is the two (scalar-promoted) buffers
concatenated self-first — so its first `len v` cells are `v`'s cells in
order and the rest are `w`'s in order — and whose shape is
`[len v + len w, ...cellShape]`.  The `Array::join` this dispatches to
is modelled from spec §4.3. -/
theorem claim3_join_cells (v w : Value) (rs : List Nat) (rd : List Value)
    (hv : ValueWF v) (hw : ValueWF w)
    (h : Value.join v w = .ok (.arr rs rd)) :
    Value.len (.arr rs rd) = v.len + w.len
    ∧ ∃ cshape : List Nat,
        rs = (v.len + w.len) :: cshape
        ∧ rd = (Value.toArr v).data ++ (Value.toArr w).data
        ∧ rd.length = (v.len + w.len) * cshape.prod
        ∧ chunksExact cshape.prod rd
          = chunksExact cshape.prod (Value.toArr v).data
            ++ chunksExact cshape.prod (Value.toArr w).data
        ∧ (cshape.prod ≠ 0 →
            (chunksExact cshape.prod (Value.toArr v).data).length = v.len
            ∧ (chunksExact cshape.prod (Value.toArr w).data).length = w.len) := by
  rw [Value.join] at h
  have hwa : (Value.toArr v).data.length = (Value.toArr v).shape.prod := toArr_wf v hv
  have hwb : (Value.toArr w).data.length = (Value.toArr w).shape.prod := toArr_wf w hw
  set a := Value.toArr v with ha_def
  set b := Value.toArr w with hb_def
  have hda : a.data.length = a.len * a.cellShape.prod := by
    rw [hwa, arr_prod_decomp]
  have hdb : b.data.length = b.len * b.cellShape.prod := by
    rw [hwb, arr_prod_decomp]
  have hva : v.len = a.len := (len_toArr v).symm
  have hvb : w.len = b.len := (len_toArr w).symm
  cases hj : Arr.join a b with
  | error e =>
    rw [hj] at h
    cases h
  | ok r =>
    rw [hj] at h
    simp only [Except.ok.injEq, Value.arr.injEq] at h
    obtain ⟨hrs, hrd⟩ := h
    rw [Arr.join] at hj
    by_cases h0 : a.len = 0
    · rw [if_pos h0] at hj
      simp only [Except.ok.injEq] at hj
      subst hj
      simp only at hrs hrd
      have hadata : a.data = [] :=
        List.length_eq_zero.mp (by rw [hda, h0, Nat.zero_mul])
      refine ⟨?_, b.cellShape, ?_, ?_, ?_, ?_, ?_⟩
      · rw [Value.len, ← hrs, hva, hvb, h0, Nat.zero_add]
        rfl
      · rw [← hrs, hva, hvb, h0, Nat.zero_add]
      · rw [← hrd, hadata, List.nil_append]
      · rw [← hrd, hva, hvb, h0, Nat.zero_add, hdb]
      · rw [← hrd, hadata, chunksExact_nil_any, List.nil_append]
      · intro hcs
        constructor
        · rw [hadata, chunksExact_nil_any, List.length_nil, hva, h0]
        · rw [length_chunksExact _ hcs, hdb, hvb,
            Nat.mul_div_cancel _ (Nat.pos_of_ne_zero hcs)]
    · by_cases h0b : b.len = 0
      · rw [if_neg h0, if_pos h0b] at hj
        simp only [Except.ok.injEq] at hj
        subst hj
        simp only at hrs hrd
        have hbdata : b.data = [] :=
          List.length_eq_zero.mp (by rw [hdb, h0b, Nat.zero_mul])
        refine ⟨?_, a.cellShape, ?_, ?_, ?_, ?_, ?_⟩
        · rw [Value.len, ← hrs, hva, hvb, h0b, Nat.add_zero]
          rfl
        · rw [← hrs, hva, hvb, h0b, Nat.add_zero]
        · rw [← hrd, hbdata, List.append_nil]
        · rw [← hrd, hva, hvb, h0b, Nat.add_zero, hda]
        · rw [← hrd, hbdata, chunksExact_nil_any, List.append_nil]
        · intro hcs
          constructor
          · rw [length_chunksExact _ hcs, hda, hva,
              Nat.mul_div_cancel _ (Nat.pos_of_ne_zero hcs)]
          · rw [hbdata, chunksExact_nil_any, List.length_nil, hvb, h0b]
      · by_cases hcell : a.cellShape = b.cellShape
        · rw [if_neg h0, if_neg h0b, if_pos hcell] at hj
          simp only [Except.ok.injEq] at hj
          subst hj
          simp only at hrs hrd
          refine ⟨?_, a.cellShape, ?_, ?_, ?_, ?_, ?_⟩
          · rw [Value.len, ← hrs, hva, hvb]
            rfl
          · rw [← hrs, hva, hvb]
          · rw [← hrd]
          · rw [← hrd, List.length_append, hda, hdb, hva, hvb, hcell, ← hcell,
              Nat.add_mul]
          · rw [← hrd]
            rcases Nat.eq_zero_or_pos a.cellShape.prod with hz | hz
            · rw [hz, chunksExact_zero, chunksExact_zero, chunksExact_zero]
              rfl
            · exact chunksExact_append _ (Nat.pos_iff_ne_zero.mp hz) _ _
                (by rw [hda]; exact dvd_mul_left _ _)
          · intro hcs
            constructor
            · rw [length_chunksExact _ hcs, hda, hva,
                Nat.mul_div_cancel _ (Nat.pos_of_ne_zero hcs)]
            · rw [length_chunksExact _ hcs, hdb, hvb, hcell,
                Nat.mul_div_cancel _ (Nat.pos_of_ne_zero (by rw [← hcell]; exact hcs))]
        · rw [if_neg h0, if_neg h0b, if_neg hcell] at hj
          cases hj

/-- Witness for C3: joining the one-element vector `[1]` with the bare
scalar `2` gives the vector `[1, 2]`. -/
theorem claim3_join_cells_witness :
    Value.len (.arr [2] [Value.num 1, Value.num 2])
      = (Value.arr [1] [Value.num 1]).len + (Value.num 2).len :=
  (claim3_join_cells (.arr [1] [.num 1]) (.num 2) [2] [.num 1, .num 2]
    (ValueWF.arr [1] [.num 1] (by decide)
      (fun u hu => by rw [List.mem_singleton.mp hu]; exact ValueWF.num 1))
    (ValueWF.num 2) (by rfl)).1

end Uiua
